import Mathlib

/-!
Shallow embedding of the REFLECT tool (`src/lib/tools/reflect/index.ts`,
`ReflectTool.doWork`).  Strings are modelled as `List Char`; the JavaScript
lazy regex scans (`/<task>([\s\S]*?)<\/task>/g` and friends) are modelled by
`splitFirst` (first occurrence of a literal pattern) iterated by
`extractAll`; `Date.now()` is modelled by an explicit `now : Nat` argument.
All definitions are structurally recursive (a fuel argument replaces
well-founded recursion) so that concrete inputs evaluate by `decide`.
-/

set_option autoImplicit false
set_option maxRecDepth 100000

namespace Reflect

/-! ### Decimal rendering of numbers (JavaScript template `${n}`) -/

/-- Fuel-driven decimal rendering; `fuel` bounds the number of digits. -/
def natToDecAux : Nat → Nat → List Char
  | 0, _ => []
  | fuel + 1, n =>
    if n < 10 then [Nat.digitChar n]
    else natToDecAux fuel (n / 10) ++ [Nat.digitChar (n % 10)]

/-- Decimal representation of a natural number, as produced by a JavaScript
template literal `${n}` for a nonnegative integer. -/
def natToDec (n : Nat) : List Char := natToDecAux (n + 1) n

/-- Value of a digit character, inverse to `Nat.digitChar` on `0..9`. -/
def charVal (c : Char) : Nat := c.toNat - 48

/-- Decimal value of a digit string, used to invert `natToDec`. -/
def decVal (l : List Char) : Nat := l.foldl (fun acc c => 10 * acc + charVal c) 0

/-! ### Literal pattern scanning (the lazy regex matches) -/

/-- Split a string at the first occurrence of the literal pattern `pat`:
`splitFirst pat s = some (b, a)` iff `s = b ++ pat ++ a` where `b` is the
shortest such prefix.  This is exactly where a JavaScript regex made of the
literal `pat` first matches. -/
def splitFirst (pat : List Char) : List Char → Option (List Char × List Char)
  | [] => if pat.isPrefixOf ([] : List Char) then some ([], []) else none
  | c :: s =>
    if pat.isPrefixOf (c :: s) then some ([], (c :: s).drop pat.length)
    else
      match splitFirst pat s with
      | none => none
      | some (b, a) => some (c :: b, a)

/-- One step of the global lazy scan `/op([\s\S]*?)cl/g`: find the opening
tag, then the nearest closing tag after it, yield the captured content and
continue after the closing tag.  `fuel` bounds the iteration count. -/
def extractLoop (op cl : List Char) : Nat → List Char → List (List Char)
  | 0, _ => []
  | fuel + 1, s =>
    match splitFirst op s with
    | none => []
    | some (_, r1) =>
      match splitFirst cl r1 with
      | none => []
      | some (content, r2) => content :: extractLoop op cl fuel r2

/-- All captures of the global lazy pattern `/op([\s\S]*?)cl/g` over `s`,
in left-to-right source order. -/
def extractAll (op cl s : List Char) : List (List Char) := extractLoop op cl s.length s

/-- First capture of the non-global lazy pattern `/op([\s\S]*?)cl/` over `s`
(`String.prototype.match`), or `none` if the pattern does not match. -/
def matchFirst (op cl s : List Char) : Option (List Char) :=
  match splitFirst op s with
  | none => none
  | some (_, r1) =>
    match splitFirst cl r1 with
    | none => none
    | some (content, _) => some content

/-- JavaScript `String.prototype.trim`: remove leading and trailing
whitespace, keep the interior intact. -/
def trimChars (l : List Char) : List Char :=
  ((l.dropWhile Char.isWhitespace).reverse.dropWhile Char.isWhitespace).reverse

/-! ### Tag literals used by `ReflectTool.doWork` -/

def taskOpen : List Char := "<task>".toList
def taskClose : List Char := "</task>".toList
def descOpen : List Char := "<description>".toList
def descClose : List Char := "</description>".toList
def reasOpen : List Char := "<reasoning>".toList
def reasClose : List Char := "</reasoning>".toList
def subOpen : List Char := "<sub_problem>".toList
def subClose : List Char := "</sub_problem>".toList

/-! ### Data model -/

/-- Sub-problem record pushed into `subProblems` by the inner loop. -/
structure SubProblemRecord where
  id : List Char
  description : List Char
  reasoning : List Char
deriving DecidableEq, Repr

/-- Task record (`TaskEntry`) pushed into `newTasks` by the outer loop. -/
structure TaskEntry where
  id : List Char
  description : List Char
  reasoning : List Char
  sub_problems : List SubProblemRecord
deriving DecidableEq, Repr

/-- Structured payload passed to `createSuccessResult`. -/
structure SuccessPayload where
  new_tasks : List TaskEntry
  tasks_count : Nat
deriving DecidableEq, Repr

/-- Result envelope: `createSuccessResult` / `createFailureResult`. -/
inductive ExecutionResult where
  | success (payload : SuccessPayload)
  | failure (message : List Char)
deriving DecidableEq, Repr

/-- Value bound to the `new_tasks` parameter: a string, or some non-string
JavaScript value. -/
inductive ParamValue where
  | str (s : List Char)
  | nonString
deriving DecidableEq, Repr

/-! ### Messages and generated identifiers -/

def paramErrMsg : List Char :=
  "REFLECT tool requires 'new_tasks' parameter as a string with XML format.".toList

def descErrMsg (taskIndex : Nat) : List Char :=
  "REFLECT tool: Task ".toList ++ natToDec (taskIndex + 1) ++
    " must have a <description> element.".toList

def subErrMsg (taskIndex : Nat) : List Char :=
  "REFLECT tool: Task ".toList ++ natToDec (taskIndex + 1) ++
    " must have at least one <sub_problem> element.".toList

def noValidMsg : List Char :=
  "REFLECT tool: No valid <task> elements found in new_tasks parameter.".toList

def placeholderReasoning : List Char := "Generated by reflection".toList

/-- Template `` `reflect_task_${Date.now()}_${taskIndex}` ``. -/
def mkTaskId (now taskIndex : Nat) : List Char :=
  "reflect_task_".toList ++ natToDec now ++ '_' :: natToDec taskIndex

/-- Template `` `reflect_sub_${Date.now()}_${taskIndex}_${subIndex}` ``. -/
def mkSubId (now taskIndex subIndex : Nat) : List Char :=
  "reflect_sub_".toList ++ natToDec now ++ '_' :: natToDec taskIndex ++
    '_' :: natToDec subIndex

/-! ### The parser -/

/-- Regex scans used on a task block's content and on the whole payload. -/
def blocksOf (s : List Char) : List (List Char) := extractAll taskOpen taskClose s

def descOf (c : List Char) : Option (List Char) := matchFirst descOpen descClose c

def reasonOf (c : List Char) : Option (List Char) := matchFirst reasOpen reasClose c

def subsOf (c : List Char) : List (List Char) := extractAll subOpen subClose c

/-- Inner loop over the `<sub_problem>` captures of one task block:
each capture is trimmed and paired with a generated id and the fixed
placeholder reasoning. -/
def buildSubs (now taskIndex : Nat) : Nat → List (List Char) → List SubProblemRecord
  | _, [] => []
  | subIndex, c :: rest =>
    { id := mkSubId now taskIndex subIndex,
      description := trimChars c,
      reasoning := placeholderReasoning } :: buildSubs now taskIndex (subIndex + 1) rest

/-- Body of the outer `while` loop for one matched task block. -/
def parseBlock (now taskIndex : Nat) (content : List Char) : Except (List Char) TaskEntry :=
  match descOf content with
  | none => Except.error (descErrMsg taskIndex)
  | some d =>
    let description := trimChars d
    let reasoning :=
      match reasonOf content with
      | some r => trimChars r
      | none => placeholderReasoning
    let subProblems := buildSubs now taskIndex 0 (subsOf content)
    if subProblems.length = 0 then Except.error (subErrMsg taskIndex)
    else Except.ok { id := mkTaskId now taskIndex, description := description,
                     reasoning := reasoning, sub_problems := subProblems }

/-- The outer `while` loop: process the matched blocks left to right,
stopping at the first failing block. -/
def parseTasks (now : Nat) : Nat → List (List Char) → Except (List Char) (List TaskEntry)
  | _, [] => Except.ok []
  | taskIndex, c :: rest =>
    match parseBlock now taskIndex c with
    | Except.error e => Except.error e
    | Except.ok t =>
      match parseTasks now (taskIndex + 1) rest with
      | Except.error e => Except.error e
      | Except.ok ts => Except.ok (t :: ts)

/-- The `try` block of `doWork`: scan the payload, build the task records,
fail if nothing matched, otherwise wrap tasks and count in the success
payload. -/
def parsePayload (s : List Char) (now : Nat) : ExecutionResult :=
  match parseTasks now 0 (blocksOf s) with
  | Except.error e => ExecutionResult.failure e
  | Except.ok tasks =>
    if tasks.length = 0 then ExecutionResult.failure noValidMsg
    else ExecutionResult.success { new_tasks := tasks, tasks_count := tasks.length }

/-- `ReflectTool.doWork`: the guard `!newTasksParam || typeof newTasksParam
!== "string"` rejects an absent parameter, any non-string value, and the
empty string (which is falsy in JavaScript); otherwise the payload is
parsed. -/
def doWork (newTasksParam : Option ParamValue) (now : Nat) : ExecutionResult :=
  match newTasksParam with
  | some (ParamValue.str s) =>
    if s = [] then ExecutionResult.failure paramErrMsg else parsePayload s now
  | _ => ExecutionResult.failure paramErrMsg

/-! ### Derived descriptions of the parser's behaviour (used in statements) -/

/-- A task block that passes both per-block validations. -/
def goodBlock (c : List Char) : Prop := (descOf c).isSome = true ∧ subsOf c ≠ []

instance goodBlock.decide (c : List Char) : Decidable (goodBlock c) := by
  unfold goodBlock; infer_instance

/-- The task record the loop body constructs for a valid block `c` at index
`taskIndex`. -/
def taskRecordOf (now taskIndex : Nat) (c : List Char) : TaskEntry :=
  { id := mkTaskId now taskIndex,
    description := trimChars ((descOf c).getD []),
    reasoning :=
      match reasonOf c with
      | some r => trimChars r
      | none => placeholderReasoning,
    sub_problems := buildSubs now taskIndex 0 (subsOf c) }

/-- The task records produced for a list of valid blocks starting at a given
index. -/
def buildTasks (now : Nat) : Nat → List (List Char) → List TaskEntry
  | _, [] => []
  | taskIndex, c :: rest => taskRecordOf now taskIndex c :: buildTasks now (taskIndex + 1) rest

/-- All generated ids of a task list: each task's id followed by its
sub-problems' ids. -/
def allIds : List TaskEntry → List (List Char)
  | [] => []
  | t :: ts => (t.id :: t.sub_problems.map SubProblemRecord.id) ++ allIds ts

/-! ### Occurrence reasoning helpers -/

/-- `hasMismatch pat l` holds when `pat` and `l` disagree at some position
that both cover, so `pat` cannot begin at the head of `l ++ y` for any `y`. -/
def hasMismatch : List Char → List Char → Bool
  | p :: ps, x :: xs => p != x || hasMismatch ps xs
  | _, _ => false

/-- Decidable check that no occurrence of `pat` can begin strictly inside
`x`, whatever text follows `x`. -/
def noStartIn (pat x : List Char) : Bool :=
  (List.range x.length).all fun i => hasMismatch pat (x.drop i)

/-- No occurrence of `pat` begins inside `x`, whatever text follows. -/
def cleanFor (pat x : List Char) : Prop :=
  ∀ (y : List Char) (i : Nat), i < x.length → pat.isPrefixOf ((x ++ y).drop i) = false

/-! ### Syntactic model of a task block's child elements (for claim C10) -/

/-- One child element of a `<task>` block. -/
inductive BlockElem where
  | desc (d : List Char)
  | reas (r : List Char)
  | sub (s : List Char)
deriving DecidableEq, Repr

/-- Concrete text of one child element. -/
def renderElem : BlockElem → List Char
  | BlockElem.desc d => descOpen ++ d ++ descClose
  | BlockElem.reas r => reasOpen ++ r ++ reasClose
  | BlockElem.sub s => subOpen ++ s ++ subClose

/-- Concrete text of a block assembled from child elements. -/
def renderBlock : List BlockElem → List Char
  | [] => []
  | e :: l => renderElem e ++ renderBlock l

/-- Content of one child element. -/
def elemContent : BlockElem → List Char
  | BlockElem.desc d => d
  | BlockElem.reas r => r
  | BlockElem.sub s => s

/-- Contents of the description elements, in order. -/
def descsIn : List BlockElem → List (List Char)
  | [] => []
  | BlockElem.desc d :: l => d :: descsIn l
  | _ :: l => descsIn l

/-- Contents of the reasoning elements, in order. -/
def reassIn : List BlockElem → List (List Char)
  | [] => []
  | BlockElem.reas r :: l => r :: reassIn l
  | _ :: l => reassIn l

/-- Contents of the sub-problem elements, in order. -/
def subsIn : List BlockElem → List (List Char)
  | [] => []
  | BlockElem.sub s :: l => s :: subsIn l
  | _ :: l => subsIn l

/-! ### Concrete sample payloads used by witnesses -/

def samplePayloadTwoTasks : List Char :=
  ("<task><description>a</description><sub_problem>s1</sub_problem>" ++
   "<sub_problem>s2</sub_problem></task>" ++
   "<task><description>b</description><sub_problem>t1</sub_problem></task>").toList

def samplePayloadSimple : List Char :=
  "<task><description>d</description><sub_problem>x</sub_problem></task>".toList

def sampleSimpleResult : SuccessPayload :=
  ⟨[⟨"reflect_task_0_0".toList, ['d'], placeholderReasoning,
    [⟨"reflect_sub_0_0_0".toList, ['x'], placeholderReasoning⟩]⟩], 1⟩

def samplePayloadWhitespace : List Char :=
  "<task><description>  </description><sub_problem> x y </sub_problem></task>".toList

def sampleWhitespaceResult : SuccessPayload :=
  ⟨[⟨"reflect_task_0_0".toList, [], placeholderReasoning,
    [⟨"reflect_sub_0_0_0".toList, "x y".toList, placeholderReasoning⟩]⟩], 1⟩


def samplePayloadDupTags : List Char :=
  ("<task><description>A</description><description>B</description>" ++
   "<reasoning>R1</reasoning><reasoning>R2</reasoning>" ++
   "<sub_problem>s</sub_problem></task>").toList

def sampleDupResult : SuccessPayload :=
  ⟨[⟨"reflect_task_0_0".toList, ['A'], "R1".toList,
    [⟨"reflect_sub_0_0_0".toList, ['s'], placeholderReasoning⟩]⟩], 1⟩


/-! ## Lemmas about the decimal rendering and the generated ids -/

theorem natToDecAux_congr : ∀ (f g n : Nat), n < f → n < g →
    natToDecAux f n = natToDecAux g n := by
  intro f
  induction f with
  | zero => intro g n h; omega
  | succ f ih =>
    intro g n hf hg
    cases g with
    | zero => omega
    | succ g =>
      simp only [natToDecAux]
      by_cases h10 : n < 10
      · simp [h10]
      · simp only [if_neg h10]
        have hdiv : n / 10 < n := Nat.div_lt_self (by omega) (by omega)
        rw [ih g (n / 10) (by omega) (by omega)]

theorem natToDec_eq (n : Nat) :
    natToDec n = if n < 10 then [Nat.digitChar n]
                 else natToDec (n / 10) ++ [Nat.digitChar (n % 10)] := by
  show natToDecAux (n + 1) n = _
  by_cases h10 : n < 10
  · simp [natToDecAux, h10]
  · have hdiv : n / 10 < n := Nat.div_lt_self (by omega) (by omega)
    simp only [natToDecAux, if_neg h10]
    rw [natToDecAux_congr n (n / 10 + 1) (n / 10) (by omega) (by omega)]
    rfl

theorem charVal_digitChar {n : Nat} (h : n < 10) : charVal (Nat.digitChar n) = n := by
  interval_cases n <;> decide

theorem decVal_append_digit (l : List Char) (c : Char) :
    decVal (l ++ [c]) = 10 * decVal l + charVal c := by
  simp [decVal, List.foldl_append]

theorem decVal_natToDec (n : Nat) : decVal (natToDec n) = n := by
  induction n using Nat.strong_induction_on with
  | _ n ih =>
    rw [natToDec_eq]
    by_cases h10 : n < 10
    · simp [if_pos h10, decVal, charVal_digitChar h10]
    · have hdiv : n / 10 < n := Nat.div_lt_self (by omega) (by omega)
      rw [if_neg h10, decVal_append_digit, ih (n / 10) hdiv,
        charVal_digitChar (Nat.mod_lt n (by omega))]
      omega

theorem natToDec_inj {a b : Nat} (h : natToDec a = natToDec b) : a = b := by
  have := decVal_natToDec a
  rw [h, decVal_natToDec] at this
  omega

theorem digitChar_ne_underscore {n : Nat} (h : n < 10) : Nat.digitChar n ≠ '_' := by
  interval_cases n <;> decide

theorem underscore_not_mem_natToDec (n : Nat) : '_' ∉ natToDec n := by
  induction n using Nat.strong_induction_on with
  | _ n ih =>
    rw [natToDec_eq]
    by_cases h10 : n < 10
    · simp only [if_pos h10, List.mem_singleton]
      exact fun h => digitChar_ne_underscore h10 h.symm
    · have hdiv : n / 10 < n := Nat.div_lt_self (by omega) (by omega)
      simp only [if_neg h10, List.mem_append, List.mem_singleton]
      rintro (h | h)
      · exact ih (n / 10) hdiv h
      · exact digitChar_ne_underscore (Nat.mod_lt n (by omega)) h.symm

theorem append_underscore_inj {x₁ y₁ x₂ y₂ : List Char}
    (h : x₁ ++ '_' :: y₁ = x₂ ++ '_' :: y₂)
    (h₁ : '_' ∉ x₁) (h₂ : '_' ∉ x₂) : x₁ = x₂ ∧ y₁ = y₂ := by
  induction x₁ generalizing x₂ with
  | nil =>
    cases x₂ with
    | nil => simpa using h
    | cons c x₂ =>
      simp only [List.nil_append, List.cons_append, List.cons.injEq] at h
      exact absurd (h.1 ▸ List.mem_cons_self c x₂) h₂
  | cons c x₁ ih =>
    cases x₂ with
    | nil =>
      simp only [List.cons_append, List.nil_append, List.cons.injEq] at h
      exact absurd (h.1 ▸ List.mem_cons_self c x₁) h₁
    | cons c₂ x₂ =>
      simp only [List.cons_append, List.cons.injEq] at h
      obtain ⟨rfl, h⟩ := h
      have := ih h (fun hm => h₁ (List.mem_cons_of_mem _ hm)) (fun hm => h₂ (List.mem_cons_of_mem _ hm))
      exact ⟨by rw [this.1], this.2⟩

theorem mkTaskId_inj {now i j : Nat} (h : mkTaskId now i = mkTaskId now j) : i = j := by
  unfold mkTaskId at h
  simp only [List.append_cancel_left_eq, List.cons.injEq, true_and] at h
  exact natToDec_inj h

theorem mkSubId_inj {now ti si ti' si' : Nat}
    (h : mkSubId now ti si = mkSubId now ti' si') : ti = ti' ∧ si = si' := by
  unfold mkSubId at h
  simp only [List.append_assoc, List.cons_append, List.append_cancel_left_eq,
    List.cons.injEq, true_and] at h
  have h2 := append_underscore_inj h
    (underscore_not_mem_natToDec ti) (underscore_not_mem_natToDec ti')
  exact ⟨natToDec_inj h2.1, natToDec_inj h2.2⟩

theorem mkTaskId_ne_mkSubId (now ti now' ti' si' : Nat) :
    mkTaskId now ti ≠ mkSubId now' ti' si' := by
  intro h
  rw [mkTaskId, mkSubId] at h
  simp only [List.append_assoc] at h
  have h9 := congrArg (List.take 9) h
  rw [List.take_append_of_le_length (by decide),
    List.take_append_of_le_length (by decide)] at h9
  exact absurd h9 (by decide)

/-! ## Lemmas about pattern scanning -/

theorem ipo_iff {p s : List Char} : p.isPrefixOf s = true ↔ ∃ t, s = p ++ t := by
  induction p generalizing s with
  | nil => simp [List.isPrefixOf]
  | cons c p ih =>
    cases s with
    | nil => simp [List.isPrefixOf]
    | cons c' s =>
      simp only [List.isPrefixOf, Bool.and_eq_true, beq_iff_eq, ih, List.cons_append,
        List.cons.injEq]
      constructor
      · rintro ⟨rfl, t, rfl⟩; exact ⟨t, rfl, rfl⟩
      · rintro ⟨t, rfl, rfl⟩; exact ⟨rfl, t, rfl⟩

theorem ipo_append (p t : List Char) : p.isPrefixOf (p ++ t) = true :=
  ipo_iff.2 ⟨t, rfl⟩

theorem ipo_drop {p s : List Char} (h : p.isPrefixOf s = true) :
    s = p ++ s.drop p.length := by
  obtain ⟨t, rfl⟩ := ipo_iff.1 h
  rw [List.drop_left]

theorem ipo_head {a : Char} {p z : List Char} (h : (a :: p).isPrefixOf z = true) :
    z.head? = some a := by
  cases z with
  | nil => simp [List.isPrefixOf] at h
  | cons c z =>
    simp only [List.isPrefixOf, Bool.and_eq_true, beq_iff_eq] at h
    simp [h.1]

theorem splitFirst_of_ipo {pat s : List Char} (h : pat.isPrefixOf s = true) :
    splitFirst pat s = some ([], s.drop pat.length) := by
  cases s with
  | nil =>
    obtain ⟨t, ht⟩ := ipo_iff.1 h
    have hp : pat = [] := by
      cases pat with
      | nil => rfl
      | cons c p => simp at ht
    subst hp
    simp [splitFirst, List.isPrefixOf]
  | cons c s => simp [splitFirst, h]

theorem splitFirst_decomp {pat s b a : List Char}
    (h : splitFirst pat s = some (b, a)) : s = b ++ pat ++ a := by
  induction s generalizing b a with
  | nil =>
    by_cases hp : pat.isPrefixOf ([] : List Char) = true
    · rw [splitFirst, if_pos hp] at h
      obtain ⟨t, ht⟩ := ipo_iff.1 hp
      have hp0 : pat = [] := by
        cases pat with
        | nil => rfl
        | cons c p => simp at ht
      cases h
      simp [hp0]
    · rw [splitFirst, if_neg hp] at h
      cases h
  | cons c s ih =>
    by_cases hp : pat.isPrefixOf (c :: s) = true
    · rw [splitFirst, if_pos hp] at h
      cases h
      simpa using ipo_drop hp
    · rw [splitFirst, if_neg hp] at h
      match hsp : splitFirst pat s with
      | none => rw [hsp] at h; cases h
      | some (b', a') =>
        rw [hsp] at h
        cases h
        have := ih hsp
        simp [this, List.append_assoc]

theorem splitFirst_min {pat s b a : List Char}
    (h : splitFirst pat s = some (b, a)) :
    ∀ b2 a2, s = b2 ++ pat ++ a2 → b.length ≤ b2.length := by
  induction s generalizing b a with
  | nil =>
    intro b2 a2 _
    by_cases hp : pat.isPrefixOf ([] : List Char) = true
    · rw [splitFirst, if_pos hp] at h; cases h; simp
    · rw [splitFirst, if_neg hp] at h; cases h
  | cons c s ih =>
    intro b2 a2 hdec
    by_cases hp : pat.isPrefixOf (c :: s) = true
    · rw [splitFirst, if_pos hp] at h; cases h; simp
    · rw [splitFirst, if_neg hp] at h
      match hsp : splitFirst pat s with
      | none => rw [hsp] at h; cases h
      | some (b', a') =>
        rw [hsp] at h
        cases h
        cases b2 with
        | nil =>
          exfalso
          apply hp
          rw [List.nil_append] at hdec
          exact hdec ▸ ipo_append pat a2
        | cons c2 b2 =>
          simp only [List.cons_append, List.cons.injEq, List.append_assoc] at hdec
          have := ih hsp b2 a2 (by simp [hdec.2, List.append_assoc])
          simpa using Nat.succ_le_succ this

theorem splitFirst_isSome (pat b a : List Char) :
    (splitFirst pat (b ++ pat ++ a)).isSome = true := by
  induction b with
  | nil =>
    rw [List.nil_append, splitFirst_of_ipo (ipo_append pat a)]
    rfl
  | cons c b ih =>
    by_cases hp : pat.isPrefixOf (c :: (b ++ pat ++ a)) = true
    · rw [List.cons_append, List.cons_append, splitFirst, if_pos (by simpa using hp)]
      rfl
    · rw [List.cons_append, List.cons_append, splitFirst,
        if_neg (by simpa using hp)]
      match hsp : splitFirst pat (b ++ pat ++ a) with
      | none => rw [hsp] at ih; cases ih
      | some (b', a') => rfl

theorem splitFirst_eq_of_min {pat s b a : List Char}
    (hdec : s = b ++ pat ++ a)
    (hmin : ∀ b2 a2, s = b2 ++ pat ++ a2 → b.length ≤ b2.length) :
    splitFirst pat s = some (b, a) := by
  have hsome := hdec ▸ splitFirst_isSome pat b a
  match hsp : splitFirst pat s with
  | none => rw [hsp] at hsome; cases hsome
  | some (b0, a0) =>
    have hd0 := splitFirst_decomp hsp
    have hle : b0.length = b.length :=
      Nat.le_antisymm (splitFirst_min hsp b a hdec) (hmin b0 a0 hd0)
    rw [hdec] at hd0
    rw [List.append_assoc, List.append_assoc] at hd0
    obtain ⟨h1, h2⟩ := List.append_inj hd0 hle.symm
    rw [List.append_cancel_left_eq] at h2
    rw [h1, h2]


theorem cleanFor_tail {pat : List Char} {c : Char} {x : List Char}
    (h : cleanFor pat (c :: x)) : cleanFor pat x := by
  intro y i hi
  have := h y (i + 1) (by simpa using Nat.succ_lt_succ hi)
  simpa using this

theorem splitFirst_skip {pat x : List Char} (h : cleanFor pat x) (y : List Char) :
    splitFirst pat (x ++ y) =
      (splitFirst pat y).map (fun p => (x ++ p.1, p.2)) := by
  induction x with
  | nil =>
    rw [List.nil_append]
    cases hsp : splitFirst pat y with
    | none => rfl
    | some p => cases p; simp
  | cons c x ih =>
    have h0 := h y 0 (by simp)
    rw [List.drop_zero, List.cons_append] at h0
    have hcond : ¬ (pat.isPrefixOf (c :: (x ++ y)) = true) := by
      rw [h0]; simp
    rw [List.cons_append, splitFirst, if_neg hcond, ih (cleanFor_tail h)]
    cases hsp : splitFirst pat y with
    | none => rfl
    | some p => cases p; simp

theorem splitFirst_none_of_cleanFor {pat x : List Char}
    (hpat : pat ≠ []) (h : cleanFor pat x) : splitFirst pat x = none := by
  match hsp : splitFirst pat x with
  | none => rfl
  | some (b, a) =>
    exfalso
    have hdec := splitFirst_decomp hsp
    have hlen : b.length < x.length := by
      rw [hdec]
      simp only [List.append_assoc, List.length_append]
      cases pat with
      | nil => exact absurd rfl hpat
      | cons p ps => simp only [List.length_cons]; omega
    have := h [] b.length (by simpa using hlen)
    rw [List.append_nil, hdec, List.append_assoc, List.drop_left] at this
    rw [ipo_append pat a] at this
    cases this

theorem hasMismatch_sound {pat l : List Char} (h : hasMismatch pat l = true)
    (y : List Char) : pat.isPrefixOf (l ++ y) = false := by
  induction pat generalizing l with
  | nil => simp [hasMismatch] at h
  | cons p ps ih =>
    cases l with
    | nil => simp [hasMismatch] at h
    | cons x xs =>
      simp only [hasMismatch, Bool.or_eq_true, bne_iff_ne, ne_eq] at h
      rw [List.cons_append, List.isPrefixOf]
      by_cases hpx : p = x
      · have hm : hasMismatch ps xs = true := by
          rcases h with h | h
          · exact absurd hpx h
          · exact h
        rw [ih hm]
        simp
      · simp [hpx]

theorem noStartIn_sound {pat x : List Char} (h : noStartIn pat x = true) :
    cleanFor pat x := by
  intro y i hi
  have hall := List.all_eq_true.1 h i (List.mem_range.2 hi)
  have hdrop : (x ++ y).drop i = x.drop i ++ y := by
    rw [List.drop_append_eq_append_drop]
    have : i - x.length = 0 := by omega
    rw [this, List.drop_zero]
  rw [hdrop]
  exact hasMismatch_sound hall y

theorem cleanFor_append {pat x₁ x₂ : List Char}
    (h₁ : cleanFor pat x₁) (h₂ : cleanFor pat x₂) : cleanFor pat (x₁ ++ x₂) := by
  intro y i hi
  rw [List.length_append] at hi
  rw [List.append_assoc]
  by_cases hcase : i < x₁.length
  · exact h₁ (x₂ ++ y) i hcase
  · have hj : i - x₁.length < x₂.length := by omega
    rw [List.drop_append_eq_append_drop,
      List.drop_eq_nil_of_le (by omega : x₁.length ≤ i), List.nil_append]
    exact h₂ y (i - x₁.length) hj


/-! ## Unfolding and skipping lemmas for the global scan -/

theorem splitFirst_nil {pat : List Char} (hpat : pat ≠ []) :
    splitFirst pat ([] : List Char) = none := by
  rw [splitFirst, if_neg]
  intro h
  obtain ⟨t, ht⟩ := ipo_iff.1 h
  cases pat with
  | nil => exact hpat rfl
  | cons c p => simp at ht

theorem splitFirst_shrink {pat s b a : List Char} (hpat : pat ≠ [])
    (h : splitFirst pat s = some (b, a)) : a.length < s.length := by
  have hdec := splitFirst_decomp h
  rw [hdec]
  simp only [List.append_assoc, List.length_append]
  cases pat with
  | nil => exact absurd rfl hpat
  | cons c p => simp only [List.length_cons]; omega

theorem extractLoop_congr {op cl : List Char} (hop : op ≠ []) :
    ∀ (f g : Nat) (s : List Char), s.length ≤ f → s.length ≤ g →
      extractLoop op cl f s = extractLoop op cl g s := by
  intro f
  induction f with
  | zero =>
    intro g s hf hg
    have hs : s = [] := List.length_eq_zero.1 (by omega)
    subst hs
    cases g with
    | zero => rfl
    | succ g => rw [extractLoop, extractLoop, splitFirst_nil hop]
  | succ f ih =>
    intro g s hf hg
    cases g with
    | zero =>
      have hs : s = [] := List.length_eq_zero.1 (by omega)
      subst hs
      rw [extractLoop, extractLoop, splitFirst_nil hop]
    | succ g =>
      cases h1 : splitFirst op s with
      | none => simp only [extractLoop, h1]
      | some p1 =>
        obtain ⟨b1, r1⟩ := p1
        cases h2 : splitFirst cl r1 with
        | none => simp only [extractLoop, h1, h2]
        | some p2 =>
          obtain ⟨content, r2⟩ := p2
          have hr1 : r1.length < s.length := splitFirst_shrink hop h1
          have hr2 : r2.length ≤ r1.length := by
            have hdec := splitFirst_decomp h2
            rw [hdec]
            simp only [List.append_assoc, List.length_append]
            omega
          simp only [extractLoop, h1, h2]
          rw [ih g r2 (by omega) (by omega)]

theorem extractAll_eq (op cl : List Char) (hop : op ≠ []) (s : List Char) :
    extractAll op cl s =
      match splitFirst op s with
      | none => []
      | some (_, r1) =>
        match splitFirst cl r1 with
        | none => []
        | some (content, r2) => content :: extractAll op cl r2 := by
  cases h1 : splitFirst op s with
  | none =>
    show extractLoop op cl s.length s = _
    cases hs : s with
    | nil => rw [hs] at h1; simp only [h1]; rfl
    | cons c s' =>
      rw [show (c :: s').length = s'.length + 1 from rfl]
      rw [hs] at h1
      simp only [extractLoop, h1]
  | some p1 =>
    obtain ⟨b1, r1⟩ := p1
    cases h2 : splitFirst cl r1 with
    | none =>
      show extractLoop op cl s.length s = _
      cases hs : s with
      | nil => rw [hs, splitFirst_nil hop] at h1; cases h1
      | cons c s' =>
        rw [show (c :: s').length = s'.length + 1 from rfl]
        rw [hs] at h1
        simp only [extractLoop, h1, h2]
    | some p2 =>
      obtain ⟨content, r2⟩ := p2
      show extractLoop op cl s.length s = _
      cases hs : s with
      | nil => rw [hs] at h1; rw [splitFirst_nil hop] at h1; cases h1
      | cons c s' =>
        rw [show (c :: s').length = s'.length + 1 from rfl]
        rw [hs] at h1
        have hr1 : r1.length < (c :: s').length := splitFirst_shrink hop h1
        have hr2 : r2.length ≤ r1.length := by
          have hdec := splitFirst_decomp h2
          rw [hdec]
          simp only [List.append_assoc, List.length_append]
          omega
        simp only [extractLoop, h1, h2]
        rw [extractLoop_congr hop s'.length r2.length r2
          (by simp only [List.length_cons] at hr1; omega) (by omega)]
        rfl

theorem extractAll_skip {op cl x : List Char} (hop : op ≠ [])
    (h : cleanFor op x) (y : List Char) :
    extractAll op cl (x ++ y) = extractAll op cl y := by
  rw [extractAll_eq op cl hop (x ++ y), extractAll_eq op cl hop y,
    splitFirst_skip h y]
  cases h1 : splitFirst op y with
  | none => rfl
  | some p1 =>
    obtain ⟨b1, r1⟩ := p1
    rfl

theorem extractAll_here {op cl s y : List Char} (hop : op ≠ [])
    (hcl : cleanFor cl s) :
    extractAll op cl (op ++ (s ++ (cl ++ y))) = s :: extractAll op cl y := by
  have h1 : splitFirst op (op ++ (s ++ (cl ++ y))) = some ([], s ++ (cl ++ y)) := by
    rw [splitFirst_of_ipo (ipo_append op (s ++ (cl ++ y))), List.drop_left]
  have h2 : splitFirst cl (s ++ (cl ++ y)) = some (s, y) := by
    rw [splitFirst_skip hcl (cl ++ y), splitFirst_of_ipo (ipo_append cl y), List.drop_left]
    simp
  rw [extractAll_eq op cl hop]
  simp only [h1, h2]

theorem matchFirst_skip {op cl x : List Char} (h : cleanFor op x) (y : List Char) :
    matchFirst op cl (x ++ y) = matchFirst op cl y := by
  rw [matchFirst, matchFirst, splitFirst_skip h y]
  cases h1 : splitFirst op y with
  | none => rfl
  | some p1 =>
    obtain ⟨b1, r1⟩ := p1
    rfl

theorem matchFirst_here {op cl d y : List Char} (hcl : cleanFor cl d) :
    matchFirst op cl (op ++ (d ++ (cl ++ y))) = some d := by
  have h1 : splitFirst op (op ++ (d ++ (cl ++ y))) = some ([], d ++ (cl ++ y)) := by
    rw [splitFirst_of_ipo (ipo_append op (d ++ (cl ++ y))), List.drop_left]
  have h2 : splitFirst cl (d ++ (cl ++ y)) = some (d, y) := by
    rw [splitFirst_skip hcl (cl ++ y), splitFirst_of_ipo (ipo_append cl y), List.drop_left]
    simp
  rw [matchFirst]
  simp only [h1, h2]

theorem matchFirst_none {op cl x : List Char} (hop : op ≠ [])
    (h : cleanFor op x) : matchFirst op cl x = none := by
  rw [matchFirst, splitFirst_none_of_cleanFor hop h]


/-! ## Correspondence between the loops and their specifications -/

theorem buildSubs_length (now ti : Nat) : ∀ (si : Nat) (l : List (List Char)),
    (buildSubs now ti si l).length = l.length := by
  intro si l
  induction l generalizing si with
  | nil => rfl
  | cons c rest ih => simp [buildSubs, ih]

theorem buildSubs_map_description (now ti : Nat) : ∀ (si : Nat) (l : List (List Char)),
    (buildSubs now ti si l).map SubProblemRecord.description = l.map trimChars := by
  intro si l
  induction l generalizing si with
  | nil => rfl
  | cons c rest ih => simp [buildSubs, ih]

theorem buildSubs_reasoning (now ti : Nat) : ∀ (si : Nat) (l : List (List Char)),
    ∀ sp ∈ buildSubs now ti si l, sp.reasoning = placeholderReasoning := by
  intro si l
  induction l generalizing si with
  | nil => intro sp h; cases h
  | cons c rest ih =>
    intro sp h
    rcases List.mem_cons.1 h with h1 | h1
    · rw [h1]
    · exact ih (si + 1) sp h1

theorem buildSubs_map_id (now ti : Nat) : ∀ (si : Nat) (l : List (List Char)),
    (buildSubs now ti si l).map SubProblemRecord.id
      = (List.range l.length).map (fun k => mkSubId now ti (si + k)) := by
  intro si l
  induction l generalizing si with
  | nil => rfl
  | cons c rest ih =>
    simp only [buildSubs, List.map_cons, List.length_cons, List.range_succ_eq_map,
      List.map_map, List.map_cons]
    rw [ih (si + 1), Nat.add_zero]
    congr 1
    apply List.map_congr_left
    intro k _
    simp only [Function.comp_apply]
    congr 1
    omega

theorem parseBlock_ok_of_good {now ti : Nat} {c : List Char} (h : goodBlock c) :
    parseBlock now ti c = Except.ok (taskRecordOf now ti c) := by
  obtain ⟨hd, hs⟩ := h
  obtain ⟨d, hd'⟩ := Option.isSome_iff_exists.1 hd
  have hlen : (buildSubs now ti 0 (subsOf c)).length ≠ 0 := by
    rw [buildSubs_length]
    exact fun h0 => hs (List.length_eq_zero.1 h0)
  simp only [parseBlock, hd', if_neg hlen]
  rw [taskRecordOf, hd']
  rfl

theorem parseBlock_ok_inv {now ti : Nat} {c : List Char} {t : TaskEntry}
    (h : parseBlock now ti c = Except.ok t) :
    goodBlock c ∧ t = taskRecordOf now ti c := by
  cases hd : descOf c with
  | none => rw [parseBlock, hd] at h; cases h
  | some d =>
    by_cases hlen : (buildSubs now ti 0 (subsOf c)).length = 0
    · simp only [parseBlock, hd, if_pos hlen] at h
      exact Except.noConfusion h
    · have hgood : goodBlock c := by
        refine ⟨by rw [hd]; rfl, fun h0 => hlen ?_⟩
        rw [buildSubs_length, h0]
        rfl
      refine ⟨hgood, ?_⟩
      have heq := @parseBlock_ok_of_good now ti c hgood
      rw [heq] at h
      exact (Except.ok.inj h).symm

theorem parseBlock_error_desc {now ti : Nat} {c : List Char} (h : descOf c = none) :
    parseBlock now ti c = Except.error (descErrMsg ti) := by
  rw [parseBlock, h]

theorem parseBlock_error_subs {now ti : Nat} {c : List Char}
    (hd : (descOf c).isSome = true) (hs : subsOf c = []) :
    parseBlock now ti c = Except.error (subErrMsg ti) := by
  obtain ⟨d, hd'⟩ := Option.isSome_iff_exists.1 hd
  have hlen : (buildSubs now ti 0 (subsOf c)).length = 0 := by
    rw [buildSubs_length, hs]
    rfl
  simp only [parseBlock, hd', if_pos hlen]

theorem parseTasks_ok_of_good {now : Nat} : ∀ (ti : Nat) (blocks : List (List Char)),
    (∀ c ∈ blocks, goodBlock c) →
    parseTasks now ti blocks = Except.ok (buildTasks now ti blocks) := by
  intro ti blocks
  induction blocks generalizing ti with
  | nil => intro _; rfl
  | cons c rest ih =>
    intro h
    rw [parseTasks, parseBlock_ok_of_good (h c (List.mem_cons_self c rest)),
      ih (ti + 1) (fun b hb => h b (List.mem_cons_of_mem c hb))]
    rfl

theorem parseTasks_ok_inv {now : Nat} : ∀ (ti : Nat) (blocks : List (List Char))
    (tasks : List TaskEntry), parseTasks now ti blocks = Except.ok tasks →
    (∀ c ∈ blocks, goodBlock c) ∧ tasks = buildTasks now ti blocks := by
  intro ti blocks
  induction blocks generalizing ti with
  | nil =>
    intro tasks h
    cases h
    exact ⟨fun c hc => absurd hc (List.not_mem_nil c), rfl⟩
  | cons c rest ih =>
    intro tasks h
    cases hb : parseBlock now ti c with
    | error e => rw [parseTasks, hb] at h; cases h
    | ok t =>
      cases hr : parseTasks now (ti + 1) rest with
      | error e => rw [parseTasks, hb, hr] at h; cases h
      | ok ts =>
        rw [parseTasks, hb, hr] at h
        cases h
        obtain ⟨hgood, ht⟩ := parseBlock_ok_inv hb
        obtain ⟨hall, hts⟩ := ih (ti + 1) ts hr
        refine ⟨?_, ?_⟩
        · intro b hb'
          rcases List.mem_cons.1 hb' with h1 | h1
          · exact h1 ▸ hgood
          · exact hall b h1
        · rw [buildTasks, ← ht, ← hts]

theorem buildTasks_length (now : Nat) : ∀ (ti : Nat) (blocks : List (List Char)),
    (buildTasks now ti blocks).length = blocks.length := by
  intro ti blocks
  induction blocks generalizing ti with
  | nil => rfl
  | cons c rest ih => simp [buildTasks, ih]

theorem buildTasks_get (now : Nat) : ∀ (ti : Nat) (blocks : List (List Char))
    (k : Nat) (hk : k < blocks.length) (hk' : k < (buildTasks now ti blocks).length),
    (buildTasks now ti blocks).get ⟨k, hk'⟩ = taskRecordOf now (ti + k) (blocks.get ⟨k, hk⟩) := by
  intro ti blocks
  induction blocks generalizing ti with
  | nil => intro k hk; cases hk
  | cons c rest ih =>
    intro k hk hk'
    cases k with
    | zero => rfl
    | succ k =>
      have := ih (ti + 1) k (by simpa using Nat.lt_of_succ_lt_succ hk)
        (by simp only [buildTasks, List.length_cons] at hk'; exact Nat.lt_of_succ_lt_succ hk')
      simp only [buildTasks, List.get_cons_succ, this]
      congr 1
      omega

theorem parseTasks_error_desc_at {now : Nat} : ∀ (blocks : List (List Char)) (ti i : Nat)
    (hi : i < blocks.length),
    (∀ c ∈ blocks.take i, goodBlock c) →
    descOf (blocks.get ⟨i, hi⟩) = none →
    parseTasks now ti blocks = Except.error (descErrMsg (ti + i)) := by
  intro blocks
  induction blocks with
  | nil => intro ti i hi; cases hi
  | cons c rest ih =>
    intro ti i hi hgood hdesc
    cases i with
    | zero =>
      have hdesc' : descOf c = none := hdesc
      rw [parseTasks, parseBlock_error_desc hdesc']
      rfl
    | succ i =>
      have hgc : goodBlock c := hgood c (by simp)
      have hrest := ih (ti + 1) i (Nat.lt_of_succ_lt_succ hi)
        (fun b hb => hgood b (by simpa using List.mem_cons_of_mem c hb)) hdesc
      have harith : ti + (i + 1) = ti + 1 + i := by omega
      rw [harith, parseTasks, parseBlock_ok_of_good hgc, hrest]

theorem parseTasks_error_subs_at {now : Nat} : ∀ (blocks : List (List Char)) (ti i : Nat)
    (hi : i < blocks.length),
    (∀ c ∈ blocks.take i, goodBlock c) →
    (descOf (blocks.get ⟨i, hi⟩)).isSome = true →
    subsOf (blocks.get ⟨i, hi⟩) = [] →
    parseTasks now ti blocks = Except.error (subErrMsg (ti + i)) := by
  intro blocks
  induction blocks with
  | nil => intro ti i hi; cases hi
  | cons c rest ih =>
    intro ti i hi hgood hdesc hsubs
    cases i with
    | zero =>
      have hdesc' : (descOf c).isSome = true := hdesc
      have hsubs' : subsOf c = [] := hsubs
      rw [parseTasks, parseBlock_error_subs hdesc' hsubs']
      rfl
    | succ i =>
      have hgc : goodBlock c := hgood c (by simp)
      have hrest := ih (ti + 1) i (Nat.lt_of_succ_lt_succ hi)
        (fun b hb => hgood b (by simpa using List.mem_cons_of_mem c hb)) hdesc hsubs
      have harith : ti + (i + 1) = ti + 1 + i := by omega
      rw [harith, parseTasks, parseBlock_ok_of_good hgc, hrest]

theorem parsePayload_success_inv {s : List Char} {now : Nat} {p : SuccessPayload}
    (h : parsePayload s now = ExecutionResult.success p) :
    parseTasks now 0 (blocksOf s) = Except.ok p.new_tasks ∧
    p.tasks_count = p.new_tasks.length ∧ p.new_tasks ≠ [] := by
  cases hp : parseTasks now 0 (blocksOf s) with
  | error e => rw [parsePayload, hp] at h; cases h
  | ok tasks =>
    by_cases hlen : tasks.length = 0
    · rw [parsePayload, hp] at h
      simp only [if_pos hlen] at h
      exact ExecutionResult.noConfusion h
    · rw [parsePayload, hp] at h
      simp only [if_neg hlen] at h
      cases h
      exact ⟨rfl, rfl, fun h0 => hlen (by have h0' : tasks = [] := h0; simp [h0'])⟩

theorem parsePayload_success_of_good {s : List Char} {now : Nat}
    (hne : blocksOf s ≠ []) (hgood : ∀ c ∈ blocksOf s, goodBlock c) :
    parsePayload s now = ExecutionResult.success
      { new_tasks := buildTasks now 0 (blocksOf s),
        tasks_count := (buildTasks now 0 (blocksOf s)).length } := by
  have hlen : ¬ (buildTasks now 0 (blocksOf s)).length = 0 := by
    rw [buildTasks_length]
    exact fun h0 => hne (List.length_eq_zero.1 h0)
  simp only [parsePayload, parseTasks_ok_of_good 0 (blocksOf s) hgood, if_neg hlen]


/-! ## Claim theorems C1 - C8 with helper lemmas -/

theorem success_task_fields {s : List Char} {now : Nat} {p : SuccessPayload}
    (hs : parsePayload s now = ExecutionResult.success p)
    (i : Nat) (hi : i < (blocksOf s).length) (hi2 : i < p.new_tasks.length) :
    p.new_tasks.get ⟨i, hi2⟩ = taskRecordOf now i ((blocksOf s).get ⟨i, hi⟩) := by
  obtain ⟨hok, _, _⟩ := parsePayload_success_inv hs
  obtain ⟨hall, htasks⟩ := parseTasks_ok_inv 0 (blocksOf s) p.new_tasks hok
  have hi3 : i < (buildTasks now 0 (blocksOf s)).length := by
    rw [buildTasks_length]; exact hi
  have h1 := List.get_of_eq htasks ⟨i, hi2⟩
  rw [h1, buildTasks_get now 0 (blocksOf s) i hi, Nat.zero_add]

theorem success_all_good {s : List Char} {now : Nat} {p : SuccessPayload}
    (hs : parsePayload s now = ExecutionResult.success p) :
    ∀ c ∈ blocksOf s, goodBlock c := by
  obtain ⟨hok, _, _⟩ := parsePayload_success_inv hs
  exact (parseTasks_ok_inv 0 (blocksOf s) p.new_tasks hok).1

theorem success_tasks_eq {s : List Char} {now : Nat} {p : SuccessPayload}
    (hs : parsePayload s now = ExecutionResult.success p) :
    p.new_tasks = buildTasks now 0 (blocksOf s) := by
  obtain ⟨hok, _, _⟩ := parsePayload_success_inv hs
  exact (parseTasks_ok_inv 0 (blocksOf s) p.new_tasks hok).2

/-- C1: for every payload whose matched task blocks are all well formed (a
description element present and at least one sub-problem capture each, with
at least one block), parsing succeeds and returns exactly one task record
per block, in source order, with matching sub-problem counts and contents,
and a `tasks_count` equal to the number of blocks. -/
theorem claim1_wellformed_success (payload : List Char) (now : Nat)
    (hne : blocksOf payload ≠ [])
    (hwf : ∀ c ∈ blocksOf payload, (descOf c).isSome = true ∧ subsOf c ≠ []) :
    ∃ p : SuccessPayload,
      parsePayload payload now = ExecutionResult.success p ∧
      p.tasks_count = (blocksOf payload).length ∧
      p.new_tasks.length = (blocksOf payload).length ∧
      ∀ (i : Nat) (hi : i < (blocksOf payload).length) (hi2 : i < p.new_tasks.length),
        (∀ d, descOf ((blocksOf payload).get ⟨i, hi⟩) = some d →
            (p.new_tasks.get ⟨i, hi2⟩).description = trimChars d) ∧
        (p.new_tasks.get ⟨i, hi2⟩).sub_problems.length
            = (subsOf ((blocksOf payload).get ⟨i, hi⟩)).length ∧
        (p.new_tasks.get ⟨i, hi2⟩).sub_problems.map SubProblemRecord.description
            = (subsOf ((blocksOf payload).get ⟨i, hi⟩)).map trimChars := by
  have hs := @parsePayload_success_of_good payload now hne hwf
  refine ⟨_, hs, by rw [buildTasks_length], by rw [buildTasks_length], ?_⟩
  intro i hi hi2
  have hget := success_task_fields hs i hi hi2
  refine ⟨?_, ?_, ?_⟩
  · intro d hd
    rw [hget, taskRecordOf, hd]
    rfl
  · rw [hget, taskRecordOf]
    exact buildSubs_length now i 0 _
  · rw [hget, taskRecordOf]
    exact buildSubs_map_description now i 0 _

/-- C2 counterexample: on the empty string the tool returns the
parameter-validation message, not the "no valid task elements" message,
because the empty string is falsy in JavaScript. -/
theorem claim2_counterexample :
    doWork (some (ParamValue.str [])) 0 = ExecutionResult.failure paramErrMsg ∧
    paramErrMsg ≠ noValidMsg := ⟨rfl, by decide⟩

/-- C2 (amended): for the empty-string payload the call fails with the
parameter-validation message; the falsiness check fires before any parsing. -/
theorem claim2_empty_string_param_error (now : Nat) :
    doWork (some (ParamValue.str [])) now = ExecutionResult.failure paramErrMsg := rfl

/-- C3 counterexample: in the payload below the block at 1-based position 2
has no description element, yet the parse error is "Task 1 must have at
least one sub_problem", not an error identifying task 2's missing
description. -/
theorem claim3_counterexample :
    descOf ((blocksOf ("<task><description>d</description></task>" ++
        "<task><sub_problem>s</sub_problem></task>").toList).getD 1 []) = none ∧
    parsePayload ("<task><description>d</description></task>" ++
        "<task><sub_problem>s</sub_problem></task>").toList 0
      = ExecutionResult.failure (subErrMsg 0) ∧
    parsePayload ("<task><description>d</description></task>" ++
        "<task><sub_problem>s</sub_problem></task>").toList 0
      ≠ ExecutionResult.failure (descErrMsg 1) := by decide

/-- C3 (amended): a payload with a description-free block never parses
successfully; and when every block before the offending one is valid, the
parse fails with exactly the message identifying the offending block's
1-based position as missing a description. -/
theorem claim3_missing_description_error :
    (∀ (s : List Char) (now : Nat),
      (∃ c ∈ blocksOf s, descOf c = none) →
      ∀ p, parsePayload s now ≠ ExecutionResult.success p)
    ∧
    (∀ (s : List Char) (now : Nat) (i : Nat) (hi : i < (blocksOf s).length),
      descOf ((blocksOf s).get ⟨i, hi⟩) = none →
      (∀ c ∈ (blocksOf s).take i, goodBlock c) →
      parsePayload s now = ExecutionResult.failure (descErrMsg i)) := by
  constructor
  · rintro s now ⟨c, hc, hdesc⟩ p hp
    have := (success_all_good hp c hc).1
    rw [hdesc] at this
    cases this
  · intro s now i hi hdesc hgood
    have h := @parseTasks_error_desc_at now (blocksOf s) 0 i hi hgood hdesc
    rw [Nat.zero_add] at h
    rw [parsePayload, h]

/-- C3 witness: concrete instances of both conjuncts of the amended claim. -/
theorem claim3_witness :
    parsePayload ("<task><description>d</description><sub_problem>x</sub_problem></task>" ++
        "<task><sub_problem>s</sub_problem></task>").toList 0
      = ExecutionResult.failure (descErrMsg 1) ∧
    parsePayload "<task><sub_problem>s</sub_problem></task>".toList 0
      ≠ ExecutionResult.success ⟨[], 0⟩ := by
  constructor
  · exact claim3_missing_description_error.2 _ 0 1 (by decide) (by decide) (by decide)
  · exact claim3_missing_description_error.1 _ 0 (by decide) ⟨[], 0⟩

/-- C4 counterexample: in the payload below the block at 1-based position 2
has a description but no sub-problems, yet the parse error is "Task 1 must
have a description", not an error identifying task 2's missing
sub-problems. -/
theorem claim4_counterexample :
    (descOf ((blocksOf ("<task><sub_problem>s</sub_problem></task>" ++
        "<task><description>d</description></task>").toList).getD 1 [])).isSome = true ∧
    subsOf ((blocksOf ("<task><sub_problem>s</sub_problem></task>" ++
        "<task><description>d</description></task>").toList).getD 1 []) = [] ∧
    parsePayload ("<task><sub_problem>s</sub_problem></task>" ++
        "<task><description>d</description></task>").toList 0
      = ExecutionResult.failure (descErrMsg 0) ∧
    parsePayload ("<task><sub_problem>s</sub_problem></task>" ++
        "<task><description>d</description></task>").toList 0
      ≠ ExecutionResult.failure (subErrMsg 1) := by decide

/-- C4 (amended): a payload with a sub-problem-free block (description
present) never parses successfully; and when every block before the
offending one is valid, the parse fails with exactly the message
identifying the offending block's 1-based position as needing at least one
sub_problem. -/
theorem claim4_missing_subproblem_error :
    (∀ (s : List Char) (now : Nat),
      (∃ c ∈ blocksOf s, (descOf c).isSome = true ∧ subsOf c = []) →
      ∀ p, parsePayload s now ≠ ExecutionResult.success p)
    ∧
    (∀ (s : List Char) (now : Nat) (i : Nat) (hi : i < (blocksOf s).length),
      (descOf ((blocksOf s).get ⟨i, hi⟩)).isSome = true →
      subsOf ((blocksOf s).get ⟨i, hi⟩) = [] →
      (∀ c ∈ (blocksOf s).take i, goodBlock c) →
      parsePayload s now = ExecutionResult.failure (subErrMsg i)) := by
  constructor
  · rintro s now ⟨c, hc, _, hsubs⟩ p hp
    exact (success_all_good hp c hc).2 hsubs
  · intro s now i hi hdesc hsubs hgood
    have h := @parseTasks_error_subs_at now (blocksOf s) 0 i hi hgood hdesc hsubs
    rw [Nat.zero_add] at h
    rw [parsePayload, h]

/-- C4 witness: concrete instances of both conjuncts of the amended claim. -/
theorem claim4_witness :
    parsePayload ("<task><description>a</description><sub_problem>x</sub_problem></task>" ++
        "<task><description>b</description></task>").toList 0
      = ExecutionResult.failure (subErrMsg 1) ∧
    parsePayload "<task><description>d</description></task>".toList 0
      ≠ ExecutionResult.success ⟨[], 0⟩ := by
  constructor
  · exact claim4_missing_subproblem_error.2 _ 0 1 (by decide) (by decide) (by decide) (by decide)
  · exact claim4_missing_subproblem_error.1 _ 0 (by decide) ⟨[], 0⟩

/-- C5: a non-empty payload in which the task pattern matches nowhere fails
with the "no valid task elements" message rather than succeeding with an
empty task list. -/
theorem claim5_no_blocks_failure (s : List Char) (now : Nat)
    (hne : s ≠ []) (hb : blocksOf s = []) :
    doWork (some (ParamValue.str s)) now = ExecutionResult.failure noValidMsg := by
  show (if s = [] then ExecutionResult.failure paramErrMsg else parsePayload s now) = _
  rw [if_neg hne, parsePayload, hb]
  rfl

/-- C5 witness. -/
theorem claim5_witness :
    doWork (some (ParamValue.str "hello".toList)) 0 = ExecutionResult.failure noValidMsg :=
  claim5_no_blocks_failure "hello".toList 0 (by decide) (by decide)


theorem buildTasks_sub_reasoning {now : Nat} : ∀ (ti : Nat) (blocks : List (List Char))
    (t : TaskEntry), t ∈ buildTasks now ti blocks →
    ∀ sp ∈ t.sub_problems, sp.reasoning = placeholderReasoning := by
  intro ti blocks
  induction blocks generalizing ti with
  | nil => intro t ht; cases ht
  | cons c rest ih =>
    intro t ht sp hsp
    rcases List.mem_cons.1 ht with h1 | h1
    · subst h1
      exact buildSubs_reasoning now ti 0 (subsOf c) sp hsp
    · exact ih (ti + 1) t h1 sp hsp

/-- C6: a successfully parsed block with no reasoning element yields the
fixed placeholder reasoning, and every sub-problem record of any successful
parse carries the fixed placeholder reasoning. -/
theorem claim6_reasoning_placeholder (s : List Char) (now : Nat) (p : SuccessPayload)
    (hs : parsePayload s now = ExecutionResult.success p) :
    (∀ (i : Nat) (hi : i < (blocksOf s).length) (hi2 : i < p.new_tasks.length),
        reasonOf ((blocksOf s).get ⟨i, hi⟩) = none →
        (p.new_tasks.get ⟨i, hi2⟩).reasoning = placeholderReasoning)
    ∧ (∀ t ∈ p.new_tasks, ∀ sp ∈ t.sub_problems, sp.reasoning = placeholderReasoning) := by
  constructor
  · intro i hi hi2 hreason
    rw [success_task_fields hs i hi hi2, taskRecordOf, hreason]
  · intro t ht sp hsp
    rw [success_tasks_eq hs] at ht
    exact buildTasks_sub_reasoning 0 (blocksOf s) t ht sp hsp

theorem dropWhile_head_not {p : Char → Bool} : ∀ (l : List Char) (c : Char),
    (l.dropWhile p).head? = some c → p c = false := by
  intro l
  induction l with
  | nil => intro c h; cases h
  | cons a l ih =>
    intro c h
    by_cases hpa : p a = true
    · rw [List.dropWhile_cons_of_pos hpa] at h
      exact ih c h
    · rw [List.dropWhile_cons_of_neg hpa] at h
      cases h
      exact Bool.not_eq_true _ ▸ hpa

theorem trimChars_decomposition (l : List Char) :
    ∃ u v : List Char,
      l = u ++ trimChars l ++ v ∧
      (∀ c ∈ u, c.isWhitespace = true) ∧
      (∀ c ∈ v, c.isWhitespace = true) ∧
      (∀ c, (trimChars l).head? = some c → c.isWhitespace = false) ∧
      (∀ c, (trimChars l).getLast? = some c → c.isWhitespace = false) := by
  refine ⟨l.takeWhile Char.isWhitespace,
    ((l.dropWhile Char.isWhitespace).reverse.takeWhile Char.isWhitespace).reverse,
    ?_, ?_, ?_, ?_, ?_⟩
  · rw [trimChars, List.append_assoc, ← List.reverse_append,
      List.takeWhile_append_dropWhile, List.reverse_reverse,
      List.takeWhile_append_dropWhile]
  · exact fun c hc => List.mem_takeWhile_imp hc
  · intro c hc
    rw [List.mem_reverse] at hc
    exact List.mem_takeWhile_imp hc
  · intro c hc
    have hm : (l.dropWhile Char.isWhitespace).head? = some c := by
      have hpre : l.dropWhile Char.isWhitespace
          = trimChars l ++ ((l.dropWhile Char.isWhitespace).reverse.takeWhile Char.isWhitespace).reverse := by
        rw [trimChars, ← List.reverse_append, List.takeWhile_append_dropWhile,
          List.reverse_reverse]
      rw [hpre]
      cases htc : trimChars l with
      | nil => rw [htc] at hc; cases hc
      | cons x xs =>
        rw [htc] at hc
        cases hc
        rfl
    exact dropWhile_head_not l c hm
  · intro c hc
    rw [trimChars, List.getLast?_reverse] at hc
    exact dropWhile_head_not _ c hc

/-- C7: every output field of a successful parse is the trimmed capture:
descriptions, reasonings and sub-problem descriptions equal the captured
content with leading and trailing whitespace removed and the interior kept
(witness the decomposition conjunct); nothing rejects a description that is
empty after trimming. -/
theorem claim7_trimmed_fields (s : List Char) (now : Nat) (p : SuccessPayload)
    (hs : parsePayload s now = ExecutionResult.success p) :
    (∀ (i : Nat) (hi : i < (blocksOf s).length) (hi2 : i < p.new_tasks.length),
      (∀ d, descOf ((blocksOf s).get ⟨i, hi⟩) = some d →
          (p.new_tasks.get ⟨i, hi2⟩).description = trimChars d) ∧
      (∀ r, reasonOf ((blocksOf s).get ⟨i, hi⟩) = some r →
          (p.new_tasks.get ⟨i, hi2⟩).reasoning = trimChars r) ∧
      (p.new_tasks.get ⟨i, hi2⟩).sub_problems.map SubProblemRecord.description
          = (subsOf ((blocksOf s).get ⟨i, hi⟩)).map trimChars)
    ∧ (∀ l : List Char, ∃ u v : List Char,
        l = u ++ trimChars l ++ v ∧
        (∀ c ∈ u, c.isWhitespace = true) ∧
        (∀ c ∈ v, c.isWhitespace = true) ∧
        (∀ c, (trimChars l).head? = some c → c.isWhitespace = false) ∧
        (∀ c, (trimChars l).getLast? = some c → c.isWhitespace = false)) := by
  constructor
  · intro i hi hi2
    have hget := success_task_fields hs i hi hi2
    refine ⟨?_, ?_, ?_⟩
    · intro d hd
      rw [hget, taskRecordOf, hd]
      rfl
    · intro r hr
      rw [hget, taskRecordOf, hr]
    · rw [hget, taskRecordOf]
      exact buildSubs_map_description now i 0 _
  · exact trimChars_decomposition

theorem buildTasks_allIds_spec (now : Nat) : ∀ (ti : Nat) (blocks : List (List Char)),
    (allIds (buildTasks now ti blocks)).Nodup ∧
    (∀ x ∈ allIds (buildTasks now ti blocks),
      ∃ k, ti ≤ k ∧ (x = mkTaskId now k ∨ ∃ j, x = mkSubId now k j)) := by
  intro ti blocks
  induction blocks generalizing ti with
  | nil => exact ⟨List.nodup_nil, fun x hx => absurd hx (List.not_mem_nil x)⟩
  | cons c rest ih =>
    obtain ⟨ihn, ihm⟩ := ih (ti + 1)
    have hids : (buildSubs now ti 0 (subsOf c)).map SubProblemRecord.id
        = (List.range (subsOf c).length).map (fun k => mkSubId now ti (0 + k)) :=
      buildSubs_map_id now ti 0 (subsOf c)
    have hgroup : (mkTaskId now ti ::
        (buildSubs now ti 0 (subsOf c)).map SubProblemRecord.id).Nodup := by
      rw [hids]
      refine List.nodup_cons.2 ⟨?_, ?_⟩
      · intro hmem
        obtain ⟨k, _, hk⟩ := List.mem_map.1 hmem
        exact mkTaskId_ne_mkSubId now ti now ti (0 + k) hk.symm
      · refine List.Nodup.map ?_ (List.nodup_range _)
        intro a b hab
        have := (mkSubId_inj hab).2
        omega
    constructor
    · show ((mkTaskId now ti :: (buildSubs now ti 0 (subsOf c)).map SubProblemRecord.id)
        ++ allIds (buildTasks now (ti + 1) rest)).Nodup
      rw [List.nodup_append]
      refine ⟨hgroup, ihn, ?_⟩
      intro x hx hx'
      obtain ⟨k, hk, hform⟩ := ihm x hx'
      rcases List.mem_cons.1 hx with h1 | h1
      · rcases hform with hf | ⟨j, hf⟩
        · rw [h1] at hf
          have := mkTaskId_inj hf
          omega
        · rw [h1] at hf
          exact mkTaskId_ne_mkSubId now ti now k j hf
      · rw [hids] at h1
        obtain ⟨m, _, hm⟩ := List.mem_map.1 h1
        rcases hform with hf | ⟨j, hf⟩
        · rw [← hm] at hf
          exact mkTaskId_ne_mkSubId now k now ti (0 + m) hf.symm
        · rw [← hm] at hf
          have hti := (mkSubId_inj hf).1
          omega
    · intro x hx
      have hx2 : x ∈ (mkTaskId now ti :: (buildSubs now ti 0 (subsOf c)).map SubProblemRecord.id)
          ++ allIds (buildTasks now (ti + 1) rest) := hx
      rcases List.mem_append.1 hx2 with h1 | h1
      · rcases List.mem_cons.1 h1 with h2 | h2
        · exact ⟨ti, Nat.le_refl ti, Or.inl h2⟩
        · rw [hids] at h2
          obtain ⟨k, _, hk⟩ := List.mem_map.1 h2
          exact ⟨ti, Nat.le_refl ti, Or.inr ⟨0 + k, hk.symm⟩⟩
      · obtain ⟨k, hk, hform⟩ := ihm x h1
        exact ⟨k, by omega, hform⟩

/-- C8: within one successful call, the generated ids of all task records
and all sub-problem records are pairwise distinct, even though the
wall-clock component `now` is the same for every record. -/
theorem claim8_ids_distinct (s : List Char) (now : Nat) (p : SuccessPayload)
    (hs : parsePayload s now = ExecutionResult.success p) :
    (allIds p.new_tasks).Nodup := by
  rw [success_tasks_eq hs]
  exact (buildTasks_allIds_spec now 0 (blocksOf s)).1


/-- C1 witness. -/
theorem claim1_witness :
    ∃ p : SuccessPayload,
      parsePayload samplePayloadTwoTasks 0 = ExecutionResult.success p ∧
      p.tasks_count = 2 := by
  obtain ⟨p, hp, hc, -⟩ :=
    claim1_wellformed_success samplePayloadTwoTasks 0 (by decide) (by decide)
  refine ⟨p, hp, ?_⟩
  rw [hc]
  decide

/-- C6 witness. -/
theorem claim6_witness :
    parsePayload samplePayloadSimple 0 = ExecutionResult.success sampleSimpleResult ∧
    (∃ h2 : 0 < sampleSimpleResult.new_tasks.length,
      (sampleSimpleResult.new_tasks.get ⟨0, h2⟩).reasoning = placeholderReasoning) ∧
    (∀ t ∈ sampleSimpleResult.new_tasks, ∀ sp ∈ t.sub_problems,
      sp.reasoning = placeholderReasoning) := by
  have hs : parsePayload samplePayloadSimple 0 = ExecutionResult.success sampleSimpleResult := by
    decide
  have h := claim6_reasoning_placeholder samplePayloadSimple 0 sampleSimpleResult hs
  exact ⟨hs, ⟨by decide, h.1 0 (by decide) (by decide) (by decide)⟩, h.2⟩

/-- C7 witness: the description that is only whitespace is accepted and
trimmed to the empty string; the sub-problem keeps its interior space. -/
theorem claim7_witness :
    parsePayload samplePayloadWhitespace 0 = ExecutionResult.success sampleWhitespaceResult ∧
    (∃ h2 : 0 < sampleWhitespaceResult.new_tasks.length,
      (sampleWhitespaceResult.new_tasks.get ⟨0, h2⟩).description = trimChars "  ".toList ∧
      (sampleWhitespaceResult.new_tasks.get ⟨0, h2⟩).description = [] ∧
      (sampleWhitespaceResult.new_tasks.get ⟨0, h2⟩).sub_problems.map
          SubProblemRecord.description = ["x y".toList]) := by
  have hs : parsePayload samplePayloadWhitespace 0
      = ExecutionResult.success sampleWhitespaceResult := by decide
  have h := claim7_trimmed_fields samplePayloadWhitespace 0 sampleWhitespaceResult hs
  refine ⟨hs, by decide, ?_, by decide, by decide⟩
  exact (h.1 0 (by decide) (by decide)).1 ("  ".toList) (by decide)

/-- C8 witness: two tasks with three sub-problems in total, all five ids
distinct. -/
theorem claim8_witness :
    ∃ p : SuccessPayload,
      parsePayload samplePayloadTwoTasks 0 = ExecutionResult.success p ∧
      (allIds p.new_tasks).Nodup := by
  have hs := @parsePayload_success_of_good samplePayloadTwoTasks 0 (by decide) (by decide)
  exact ⟨_, hs, claim8_ids_distinct _ 0 _ hs⟩


/-! ## Claim theorem C9 -/

/-- C9: when a block contains several description or reasoning elements,
exactly the first (lazily matched) occurrence of each is used for the
resulting record; the later occurrences land in the remainder and do not
affect the output.  "First occurrence" is expressed by minimality of the
prefix before the opening tag and of the captured content before the
closing tag. -/
theorem claim9_first_occurrence_used (s : List Char) (now : Nat) (p : SuccessPayload)
    (hs : parsePayload s now = ExecutionResult.success p)
    (i : Nat) (hi : i < (blocksOf s).length) (hi2 : i < p.new_tasks.length) :
    (∀ b d a, (blocksOf s).get ⟨i, hi⟩ = b ++ descOpen ++ (d ++ descClose ++ a) →
      (∀ b2 r2, (blocksOf s).get ⟨i, hi⟩ = b2 ++ descOpen ++ r2 → b.length ≤ b2.length) →
      (∀ d2 a2, d ++ descClose ++ a = d2 ++ descClose ++ a2 → d.length ≤ d2.length) →
      (p.new_tasks.get ⟨i, hi2⟩).description = trimChars d) ∧
    (∀ b r a, (blocksOf s).get ⟨i, hi⟩ = b ++ reasOpen ++ (r ++ reasClose ++ a) →
      (∀ b2 r2, (blocksOf s).get ⟨i, hi⟩ = b2 ++ reasOpen ++ r2 → b.length ≤ b2.length) →
      (∀ r2 a2, r ++ reasClose ++ a = r2 ++ reasClose ++ a2 → r.length ≤ r2.length) →
      (p.new_tasks.get ⟨i, hi2⟩).reasoning = trimChars r) := by
  constructor
  · intro b d a hdec hminopen hminclose
    have h1 : splitFirst descOpen ((blocksOf s).get ⟨i, hi⟩)
        = some (b, d ++ descClose ++ a) := splitFirst_eq_of_min hdec hminopen
    have h2 : splitFirst descClose (d ++ descClose ++ a) = some (d, a) :=
      splitFirst_eq_of_min rfl hminclose
    have hdof : descOf ((blocksOf s).get ⟨i, hi⟩) = some d := by
      rw [descOf, matchFirst]
      simp only [h1, h2]
    rw [success_task_fields hs i hi hi2, taskRecordOf, hdof]
    rfl
  · intro b r a hdec hminopen hminclose
    have h1 : splitFirst reasOpen ((blocksOf s).get ⟨i, hi⟩)
        = some (b, r ++ reasClose ++ a) := splitFirst_eq_of_min hdec hminopen
    have h2 : splitFirst reasClose (r ++ reasClose ++ a) = some (r, a) :=
      splitFirst_eq_of_min rfl hminclose
    have hrof : reasonOf ((blocksOf s).get ⟨i, hi⟩) = some r := by
      rw [reasonOf, matchFirst]
      simp only [h1, h2]
    rw [success_task_fields hs i hi hi2, taskRecordOf, hrof]

/-- C9 witness: with two description and two reasoning elements, the record
uses "A" and "R1", the first of each. -/
theorem claim9_witness :
    parsePayload samplePayloadDupTags 0 = ExecutionResult.success sampleDupResult ∧
    (∃ h2 : 0 < sampleDupResult.new_tasks.length,
      (sampleDupResult.new_tasks.get ⟨0, h2⟩).description = trimChars ['A'] ∧
      (sampleDupResult.new_tasks.get ⟨0, h2⟩).reasoning = trimChars "R1".toList) := by
  have hs : parsePayload samplePayloadDupTags 0 = ExecutionResult.success sampleDupResult := by
    decide
  have h := claim9_first_occurrence_used samplePayloadDupTags 0 sampleDupResult hs 0
    (by decide) (by decide)
  refine ⟨hs, by decide, ?_, ?_⟩
  · have hsp : splitFirst descClose (['A'] ++ descClose ++
        "<description>B</description><reasoning>R1</reasoning><reasoning>R2</reasoning><sub_problem>s</sub_problem>".toList)
        = some (['A'],
        "<description>B</description><reasoning>R1</reasoning><reasoning>R2</reasoning><sub_problem>s</sub_problem>".toList) := by
      decide
    exact h.1 [] ['A']
      ("<description>B</description><reasoning>R1</reasoning><reasoning>R2</reasoning><sub_problem>s</sub_problem>".toList)
      (by decide) (fun b2 r2 _ => Nat.zero_le _) (splitFirst_min hsp)
  · have hsp1 : splitFirst reasOpen
        ("<description>A</description><description>B</description><reasoning>R1</reasoning><reasoning>R2</reasoning><sub_problem>s</sub_problem>".toList)
        = some ("<description>A</description><description>B</description>".toList,
          "R1".toList ++ reasClose ++ "<reasoning>R2</reasoning><sub_problem>s</sub_problem>".toList) := by
      decide
    have hsp2 : splitFirst reasClose ("R1".toList ++ reasClose ++
        "<reasoning>R2</reasoning><sub_problem>s</sub_problem>".toList)
        = some ("R1".toList, "<reasoning>R2</reasoning><sub_problem>s</sub_problem>".toList) := by
      decide
    exact h.2 ("<description>A</description><description>B</description>".toList)
      ("R1".toList)
      ("<reasoning>R2</reasoning><sub_problem>s</sub_problem>".toList)
      (by decide) (splitFirst_min hsp1) (splitFirst_min hsp2)


/-! ## Claim theorem C10: block-element order -/

theorem cleanFor_of_no_lt {pat x : List Char} (hpat : pat.head? = some '<')
    (hx : '<' ∉ x) : cleanFor pat x := by
  intro y i hi
  cases hp : pat.isPrefixOf ((x ++ y).drop i) with
  | false => rfl
  | true =>
    exfalso
    cases pat with
    | nil => cases hpat
    | cons p ps =>
      have hpeq : p = '<' := Option.some.inj hpat
      subst hpeq
      have hhead := ipo_head hp
      have hdropne : x.drop i ≠ [] := by
        intro h0
        have := List.drop_eq_nil_iff.1 h0
        omega
      rw [List.drop_append_eq_append_drop,
        (by omega : i - x.length = 0), List.drop_zero,
        List.head?_append_of_ne_nil _ hdropne] at hhead
      exact hx (List.drop_subset i x (List.mem_of_mem_head? (hhead ▸ rfl)))

theorem cleanFor_tagged {pat op content cl : List Char}
    (hop : noStartIn pat op = true) (hcl : noStartIn pat cl = true)
    (hpat : pat.head? = some '<') (hcontent : '<' ∉ content) :
    cleanFor pat (op ++ content ++ cl) :=
  cleanFor_append (cleanFor_append (noStartIn_sound hop)
    (cleanFor_of_no_lt hpat hcontent)) (noStartIn_sound hcl)

theorem renderBlock_matchFirst_desc : ∀ (l : List BlockElem),
    (∀ e ∈ l, '<' ∉ elemContent e) →
    matchFirst descOpen descClose (renderBlock l) = (descsIn l).head? := by
  intro l
  induction l with
  | nil =>
    intro _
    rw [renderBlock, matchFirst, splitFirst_nil (by decide)]
    rfl
  | cons e rest ih =>
    intro hclean
    have hc : '<' ∉ elemContent e := hclean e (List.mem_cons_self e rest)
    have hrest := ih (fun e' he' => hclean e' (List.mem_cons_of_mem e he'))
    cases e with
    | desc d =>
      have hc' : '<' ∉ d := hc
      have hr : renderBlock (BlockElem.desc d :: rest)
          = descOpen ++ (d ++ (descClose ++ renderBlock rest)) := by
        rw [renderBlock, renderElem]
        simp [List.append_assoc]
      have hcf : cleanFor descClose d := cleanFor_of_no_lt (by decide) hc'
      rw [hr, matchFirst_here hcf]
      rfl
    | reas r =>
      have hc' : '<' ∉ r := hc
      have hcf : cleanFor descOpen (reasOpen ++ r ++ reasClose) :=
        @cleanFor_tagged descOpen reasOpen r reasClose (by decide) (by decide) (by decide) hc'
      rw [renderBlock, renderElem, matchFirst_skip hcf, hrest]
      rfl
    | sub s =>
      have hc' : '<' ∉ s := hc
      have hcf : cleanFor descOpen (subOpen ++ s ++ subClose) :=
        @cleanFor_tagged descOpen subOpen s subClose (by decide) (by decide) (by decide) hc'
      rw [renderBlock, renderElem, matchFirst_skip hcf, hrest]
      rfl

theorem renderBlock_matchFirst_reas : ∀ (l : List BlockElem),
    (∀ e ∈ l, '<' ∉ elemContent e) →
    matchFirst reasOpen reasClose (renderBlock l) = (reassIn l).head? := by
  intro l
  induction l with
  | nil =>
    intro _
    rw [renderBlock, matchFirst, splitFirst_nil (by decide)]
    rfl
  | cons e rest ih =>
    intro hclean
    have hc : '<' ∉ elemContent e := hclean e (List.mem_cons_self e rest)
    have hrest := ih (fun e' he' => hclean e' (List.mem_cons_of_mem e he'))
    cases e with
    | reas r =>
      have hc' : '<' ∉ r := hc
      have hr : renderBlock (BlockElem.reas r :: rest)
          = reasOpen ++ (r ++ (reasClose ++ renderBlock rest)) := by
        rw [renderBlock, renderElem]
        simp [List.append_assoc]
      have hcf : cleanFor reasClose r := cleanFor_of_no_lt (by decide) hc'
      rw [hr, matchFirst_here hcf]
      rfl
    | desc d =>
      have hc' : '<' ∉ d := hc
      have hcf : cleanFor reasOpen (descOpen ++ d ++ descClose) :=
        @cleanFor_tagged reasOpen descOpen d descClose (by decide) (by decide) (by decide) hc'
      rw [renderBlock, renderElem, matchFirst_skip hcf, hrest]
      rfl
    | sub s =>
      have hc' : '<' ∉ s := hc
      have hcf : cleanFor reasOpen (subOpen ++ s ++ subClose) :=
        @cleanFor_tagged reasOpen subOpen s subClose (by decide) (by decide) (by decide) hc'
      rw [renderBlock, renderElem, matchFirst_skip hcf, hrest]
      rfl

theorem renderBlock_extractAll_sub : ∀ (l : List BlockElem),
    (∀ e ∈ l, '<' ∉ elemContent e) →
    extractAll subOpen subClose (renderBlock l) = subsIn l := by
  intro l
  induction l with
  | nil => intro _; rfl
  | cons e rest ih =>
    intro hclean
    have hc : '<' ∉ elemContent e := hclean e (List.mem_cons_self e rest)
    have hrest := ih (fun e' he' => hclean e' (List.mem_cons_of_mem e he'))
    cases e with
    | sub s =>
      have hc' : '<' ∉ s := hc
      have hr : renderBlock (BlockElem.sub s :: rest)
          = subOpen ++ (s ++ (subClose ++ renderBlock rest)) := by
        rw [renderBlock, renderElem]
        simp [List.append_assoc]
      have hcf : cleanFor subClose s := cleanFor_of_no_lt (by decide) hc'
      rw [hr, @extractAll_here subOpen subClose s (renderBlock rest) (by decide) hcf, hrest]
      rfl
    | desc d =>
      have hc' : '<' ∉ d := hc
      have hcf : cleanFor subOpen (descOpen ++ d ++ descClose) :=
        @cleanFor_tagged subOpen descOpen d descClose (by decide) (by decide) (by decide) hc'
      rw [renderBlock, renderElem,
        @extractAll_skip subOpen subClose (descOpen ++ d ++ descClose) (by decide) hcf
          (renderBlock rest), hrest]
      rfl
    | reas r =>
      have hc' : '<' ∉ r := hc
      have hcf : cleanFor subOpen (reasOpen ++ r ++ reasClose) :=
        @cleanFor_tagged subOpen reasOpen r reasClose (by decide) (by decide) (by decide) hc'
      rw [renderBlock, renderElem,
        @extractAll_skip subOpen subClose (reasOpen ++ r ++ reasClose) (by decide) hcf
          (renderBlock rest), hrest]
      rfl

theorem parseBlock_congr {now ti : Nat} {c1 c2 : List Char}
    (h1 : descOf c1 = descOf c2) (h2 : reasonOf c1 = reasonOf c2)
    (h3 : subsOf c1 = subsOf c2) :
    parseBlock now ti c1 = parseBlock now ti c2 := by
  simp only [parseBlock, h1, h2, h3]

/-- C10: permuting the child elements of a task block between kinds --
keeping each of the three kinds' own relative order, with element contents
free of tag characters -- yields an identical task record, because each
field is extracted by an independent scan of the whole block content. -/
theorem claim10_element_order_irrelevant (now ti : Nat) (l1 l2 : List BlockElem)
    (hc1 : ∀ e ∈ l1, '<' ∉ elemContent e) (hc2 : ∀ e ∈ l2, '<' ∉ elemContent e)
    (hdesc : descsIn l1 = descsIn l2) (hreas : reassIn l1 = reassIn l2)
    (hsub : subsIn l1 = subsIn l2) :
    parseBlock now ti (renderBlock l1) = parseBlock now ti (renderBlock l2) := by
  refine parseBlock_congr ?_ ?_ ?_
  · rw [descOf, descOf, renderBlock_matchFirst_desc l1 hc1,
      renderBlock_matchFirst_desc l2 hc2, hdesc]
  · rw [reasonOf, reasonOf, renderBlock_matchFirst_reas l1 hc1,
      renderBlock_matchFirst_reas l2 hc2, hreas]
  · rw [subsOf, subsOf, renderBlock_extractAll_sub l1 hc1,
      renderBlock_extractAll_sub l2 hc2, hsub]

/-- C10 witness: moving both sub-problems in front of the description
leaves the parsed record unchanged. -/
theorem claim10_witness :
    parseBlock 0 0 (renderBlock
        [BlockElem.desc ['d'], BlockElem.sub ['a'], BlockElem.sub ['b']])
      = parseBlock 0 0 (renderBlock
        [BlockElem.sub ['a'], BlockElem.sub ['b'], BlockElem.desc ['d']]) :=
  claim10_element_order_irrelevant 0 0 _ _ (by decide) (by decide) (by decide)
    (by decide) (by decide)


end Reflect
